import Mathlib

/-!
Verification of the `pk` poker library (`poker.h`): cards, decks,
the table (draw pile plus player hands), and the operations
construct / shuffle / deal / draw / play / sort / suit-subdeck.

The C++ code is embedded shallowly: `std::vector<card>` piles become
`List card`, bit-field truncation in the `card` constructor becomes
explicit `% 4` / `% 16`, exceptions become `Except pkError`, and the
randomness consumed by `shuffle` becomes an explicit list of realized
index choices.
-/

namespace PK

/-- Suit enumerator value CLUB = 0 (`poker.h` line 36). -/
def CLUB : Nat := 0

/-- Suit enumerator value DIAMOND = 1 (`poker.h` line 37). -/
def DIAMOND : Nat := 1

/-- Suit enumerator value HEART = 2 (`poker.h` line 38). -/
def HEART : Nat := 2

/-- Suit enumerator value SPADE = 3 (`poker.h` line 39). -/
def SPADE : Nat := 3

/-- A poker card as stored: `suit` is the value of the 2-bit field,
`number` the value of the 4-bit field (`poker.h` lines 56 and 67). -/
structure card where
  suit : Nat
  number : Nat
deriving DecidableEq

/-- The C++ card constructor `card(_suit, _number)` (`poker.h` line 50):
the arguments are narrowed to `unsigned short` and then stored into a
2-bit and a 4-bit unsigned bit-field, so the stored values are the
arguments reduced modulo 4 and modulo 16. -/
def card.make (s n : Nat) : card :=
  { suit := s % 4, number := n % 16 }

/-- `card::operator==` (`poker.h` lines 79-82): equality of the stored
`number` and `suit` fields. -/
def card.eqCard (a b : card) : Bool :=
  a.number == b.number && a.suit == b.suit

/-- `deck::remove` (`poker.h` lines 321-329): find the first element
equal to `c`; if none exists, throw (`none` here); otherwise erase that
first occurrence and return the remaining pile. -/
def deckRemove (pile : List card) (c : card) : Option (List card) :=
  if pile.any (fun x => card.eqCard x c) then
    some (pile.eraseP (fun x => card.eqCard x c))
  else
    none

/-- The `rank_first_descending` comparator passed to `std::sort`
(`poker.h` lines 374-379): on distinct numbers, `a` precedes `b` iff
`a` is an Ace, or `b` is not an Ace and `a`'s number is larger;
on equal numbers, larger suit first. -/
def rankLt (a b : card) : Bool :=
  if a.number != b.number then
    a.number == 1 || (b.number != 1 && decide (b.number < a.number))
  else
    decide (b.suit < a.suit)

/-- The `suit_first_descending` comparator passed to `std::sort`
(`poker.h` lines 382-387): on equal suits, the same Ace-high descending
number rule; otherwise larger suit first. -/
def suitLt (a b : card) : Bool :=
  if a.suit == b.suit then
    a.number == 1 || (b.number != 1 && decide (b.number < a.number))
  else
    decide (b.suit < a.suit)

/-- `deck::sort_mode` (`poker.h` lines 172-175). -/
inductive sort_mode where
  | rank_first_descending
  | suit_first_descending
deriving DecidableEq

/-- The strict comparator `deck::sort` passes to `std::sort` for each
mode (`poker.h` lines 369-392). -/
def modeLt : sort_mode → card → card → Bool
  | sort_mode.rank_first_descending => rankLt
  | sort_mode.suit_first_descending => suitLt

/-- `deck::sort` (`poker.h` lines 369-392): `std::sort` with the strict
comparator of the chosen mode.  `std::sort` produces the permutation of
the pile that is sorted for the comparator; it is modelled by
`mergeSort` on the non-strict relation `fun a b => !(lt b a)`.  For both
comparators two cards are incomparable only when their stored fields
are equal, so the sorted sequence is unique and the model is exact. -/
def deckSort (mode : sort_mode) (pile : List card) : List card :=
  pile.mergeSort (fun a b => !(modeLt mode b a))

/-- `deck::suit_subdeck` (`poker.h` lines 358-367): fold over the pile,
appending every card whose (int-promoted) suit field equals the `int`
argument to a fresh deck. -/
def suit_subdeck (pile : List card) (s : Int) : List card :=
  pile.foldl (fun acc c => if (c.suit : Int) = s then acc ++ [c] else acc) []

/-- The error kinds of the library: `std::invalid_argument` from the
constructor, `std::out_of_range` from `play`/`draw`,
`std::invalid_argument` from `deck::remove` (NotFound), and the
undefined `pop_back`/`back` on an empty pile, modelled as an explicit
`emptyPile` error. -/
inductive pkError where
  | invalidArgument
  | outOfRange
  | notFound
  | emptyPile
deriving DecidableEq

/-- The table: player count, draw pile and the per-player hands
(`poker.h` lines 281-283). -/
structure poker where
  players : Nat
  pile : List card
  player_card : List (List card)
deriving DecidableEq

/-- The 52 cards one source deck contributes, in push order
(`poker.h` lines 408-412): suits 0,1,2,3, and numbers 1..13 within
each suit. -/
def oneDeckCards : List card :=
  (List.range 4).flatMap (fun i => (List.range 13).map (fun j => card.make i (j + 1)))

/-- What one iteration of the constructor's outer deck loop appends
(`poker.h` lines 407-417): the 52 cards, then `card{1,14}` twice when
jokers are requested. -/
def deckBlock (joker : Bool) : List card :=
  oneDeckCards ++ (if joker then [card.make 1 14, card.make 1 14] else [])

/-- `poker::poker` (`poker.h` lines 401-422): throw on zero players,
otherwise build the pile from `deckCnt` copies of the per-deck block
and create `playerCnt` empty hands. -/
def pokerInit (deckCnt playerCnt : Nat) (joker : Bool) : Except pkError poker :=
  if playerCnt = 0 then
    Except.error pkError.invalidArgument
  else
    Except.ok
      { players := playerCnt
        pile := (List.range deckCnt).flatMap (fun _ => deckBlock joker)
        player_card := List.replicate playerCnt [] }

/-- One swap `std::swap(pile[a], pile[b])` of `poker::shuffle`
(`poker.h` line 444).  Out-of-range indexing is undefined in C++; the
model leaves the pile unchanged there, and the shuffle theorems
restrict to the in-range indices the algorithm actually draws. -/
def swapIdx (l : List card) (a b : Nat) : List card :=
  match l[a]?, l[b]? with
  | some x, some y => (l.set a y).set b x
  | _, _ => l

/-- `poker::shuffle` (`poker.h` lines 424-446) with its randomness made
explicit: `ps` is the list of realized index pairs `(a, b)` of the
`time` iterations, each `a` drawn from `[0, size)` and `b` redrawn
until it differs from `a`; each iteration swaps `pile[a]` and
`pile[b]`. -/
def pokerShuffle (st : poker) (ps : List (Nat × Nat)) : poker :=
  { st with pile := ps.foldl (fun p q => swapIdx p q.1 q.2) st.pile }

/-- The distinct-pair redraw of `poker::shuffle` (`poker.h` lines
441-443): given the first index `a` and the stream of subsequent draws
for `b`, the do-while loop returns the first draw different from `a`;
`none` means every draw in the stream collided, i.e. the loop is still
running after consuming it. -/
def findDistinct (a : Nat) : List Nat → Option Nat
  | [] => none
  | b :: rest => if b = a then findDistinct a rest else some b

/-- `poker::draw` (`poker.h` lines 456-464): range-check the player,
move the last pile card to that player's hand and return it. -/
def pokerDraw (st : poker) (pno : Nat) : Except pkError (card × poker) :=
  if st.players ≤ pno then
    Except.error pkError.outOfRange
  else
    match st.pile.getLast? with
    | none => Except.error pkError.emptyPile
    | some c =>
      Except.ok (c,
        { st with
          pile := st.pile.dropLast
          player_card := st.player_card.set pno (st.player_card.getD pno [] ++ [c]) })

/-- `poker::play` (`poker.h` lines 448-454): range-check the player,
then `deck::remove` the card from that player's hand.  The removed
card is discarded; it is not appended to the draw pile. -/
def pokerPlay (st : poker) (pno : Nat) (c : card) : Except pkError poker :=
  if st.players ≤ pno then
    Except.error pkError.outOfRange
  else
    match deckRemove (st.player_card.getD pno []) c with
    | none => Except.error pkError.notFound
    | some h => Except.ok { st with player_card := st.player_card.set pno h }

/-- The loop of `poker::deal` (`poker.h` lines 470-476): `n` iterations
remain, `pno` is the current player; each iteration moves the last pile
card to hand `pno` and advances `pno` cyclically.  Popping an empty
pile is undefined in C++ and surfaces as `emptyPile` here. -/
def dealLoop (players : Nat) :
    Nat → Nat → List card → List (List card) → Except pkError (List card × List (List card))
  | 0, _, pile, hands => Except.ok (pile, hands)
  | n + 1, pno, pile, hands =>
    match pile.getLast? with
    | none => Except.error pkError.emptyPile
    | some c =>
      dealLoop players n (if players ≤ pno + 1 then 0 else pno + 1)
        pile.dropLast (hands.set pno (hands.getD pno [] ++ [c]))

/-- `poker::deal` (`poker.h` lines 466-477): deal
`card_per_person * players` cards starting from player 0.  The product
`card_per_person *= players` (line 469) is computed in `unsigned int`,
so it wraps modulo `2^32`. -/
def pokerDeal (st : poker) (card_per_person : Nat) : Except pkError poker :=
  match dealLoop st.players ((card_per_person * st.players) % 4294967296) 0
      st.pile st.player_card with
  | Except.error e => Except.error e
  | Except.ok (pile, hands) => Except.ok { st with pile := pile, player_card := hands }

/-- Total number of cards on the table: draw pile plus all hands. -/
def totalCards (st : poker) : Nat :=
  st.pile.length + (st.player_card.map List.length).sum

/-- The lawful companion of a mode's non-strict relation: comparator
verdict or record equality.  Unlike the raw relation it is total, and
it is antisymmetric and transitive. -/
def modeLe2 (mode : sort_mode) (a b : card) : Bool :=
  !(modeLt mode b a) || a == b

/-- How many of the first `n` round-robin steps starting at player
`pno` land on player `i` (with `p` players). -/
def rrCount (p n pno i : Nat) : Nat :=
  ((List.range n).filter (fun j => (pno + j) % p == i)).length

/-- A concrete two-card, one-player table used by witnesses. -/
def twoCardTable : poker :=
  { players := 1, pile := [card.make 0 1, card.make 0 2], player_card := [[]] }

/-- A concrete two-player table with a four-card pile for witnesses. -/
def fourCardTable : poker :=
  { players := 2
    pile := [card.make 0 1, card.make 0 2, card.make 0 3, card.make 0 4]
    player_card := [[], []] }

/-- A one-player table holding a single card in the hand. -/
def oneHandTable : poker :=
  { players := 1, pile := [], player_card := [[card.make 0 7]] }

/-- The table `poker(82595525, 65536, false)`: 65536 players and a
pile of `82595525 * 52 = 4294967300` cards, enough for the deal
product `65536 * 65536 = 2^32` to wrap. -/
def wrapDealTable : poker :=
  { players := 65536
    pile := (List.range 82595525).flatMap (fun _ => deckBlock false)
    player_card := List.replicate 65536 [] }

/-- Length of a constant `flatMap` over `List.range`. -/
theorem flatMap_const_length {α : Type} (bl : List α) :
    ∀ d : Nat, ((List.range d).flatMap (fun _ => bl)).length = d * bl.length := by
  intro d
  induction d with
  | zero => simp
  | succ k ih =>
    rw [List.range_succ, List.flatMap_append, List.length_append, ih]
    simp [Nat.succ_mul]

/-- Filtered length of a constant `flatMap` over `List.range`. -/
theorem flatMap_const_filter_length {α : Type} (bl : List α) (q : α → Bool) :
    ∀ d : Nat,
      (((List.range d).flatMap (fun _ => bl)).filter q).length = d * (bl.filter q).length := by
  intro d
  induction d with
  | zero => simp
  | succ k ih =>
    rw [List.range_succ, List.flatMap_append, List.filter_append, List.length_append, ih]
    simp [Nat.succ_mul]

/-- C10: the stored suit is the constructor argument modulo 4 and the
stored number is the argument modulo 16 (2-bit and 4-bit bit-fields),
and card equality observes exactly these truncated values, so
out-of-range arguments wrap silently instead of being rejected. -/
theorem card_ctor_truncation (s n t m : Nat) :
    (card.make s n).suit = s % 4 ∧ (card.make s n).number = n % 16 ∧
    (card.make s n = card.make t m ↔ s % 4 = t % 4 ∧ n % 16 = m % 16) ∧
    (card.eqCard (card.make s n) (card.make t m) = true ↔ s % 4 = t % 4 ∧ n % 16 = m % 16) := by
  refine ⟨rfl, rfl, ?_, ?_⟩
  · constructor
    · intro h
      exact ⟨congrArg card.suit h, congrArg card.number h⟩
    · intro h
      simp [card.make, h.1, h.2]
  · simp [card.eqCard, card.make, and_comm]

/-- C2: constructing the table with `p = 0` fails with InvalidArgument;
with `d ≥ 1` decks and `p ≥ 1` players it yields `p` empty hands and a
draw pile of `d*52 + j*d*2` cards, consisting for each source deck of
the 52 cards with suits 0-3 and numbers 1-13 followed, when jokers are
requested, by two Joker cards with number 14 and suit fixed to
DIAMOND. -/
theorem construction_spec (d p : Nat) (j : Bool) (hd : 1 ≤ d) (hp : 1 ≤ p) :
    pokerInit d 0 j = Except.error pkError.invalidArgument ∧
    ∃ st, pokerInit d p j = Except.ok st ∧
      st.players = p ∧
      st.player_card = List.replicate p [] ∧
      st.pile.length = d * 52 + (if j then d * 2 else 0) ∧
      st.pile = (List.range d).flatMap (fun _ =>
        ((List.range 4).flatMap (fun i =>
          (List.range 13).map (fun r => { suit := i, number := r + 1 : card })))
          ++ (if j then
                [{ suit := 1, number := 14 : card }, { suit := 1, number := 14 : card }]
              else [])) ∧
      (∀ c ∈ st.pile, c.number = 14 → c.suit = DIAMOND) ∧
      (j = true → (st.pile.filter (fun c => c.number == 14)).length = d * 2) := by
  have hp0 : p ≠ 0 := Nat.one_le_iff_ne_zero.mp hp
  constructor
  · simp [pokerInit]
  refine ⟨{ players := p, pile := (List.range d).flatMap (fun _ => deckBlock j),
            player_card := List.replicate p [] }, by simp [pokerInit, hp0], rfl, rfl,
          ?_, ?_, ?_, ?_⟩
  · have hb : (deckBlock j).length = 52 + (if j then 2 else 0) := by
      cases j <;> decide
    rw [flatMap_const_length, hb]
    cases j <;> simp [Nat.mul_add] <;> ring
  · have hb : deckBlock j =
        ((List.range 4).flatMap (fun i =>
          (List.range 13).map (fun r => { suit := i, number := r + 1 : card })))
          ++ (if j then
                [{ suit := 1, number := 14 : card }, { suit := 1, number := 14 : card }]
              else []) := by
      cases j <;> decide
    simp only [hb]
  · intro c hc h14
    have hmem : c ∈ deckBlock j := by
      obtain ⟨a, _, hcb⟩ := List.mem_flatMap.mp hc
      exact hcb
    have hall : ∀ c ∈ deckBlock j, c.number = 14 → c.suit = DIAMOND := by
      cases j <;> decide
    exact hall c hmem h14
  · intro hj
    subst hj
    rw [flatMap_const_filter_length]
    have hcnt : ((deckBlock true).filter (fun c => c.number == 14)).length = 2 := by decide
    rw [hcnt]

/-- Witness for `construction_spec` at `d = 1`, `p = 2`, jokers on. -/
theorem construction_spec_witness :
    pokerInit 1 0 true = Except.error pkError.invalidArgument ∧
    ∃ st, pokerInit 1 2 true = Except.ok st ∧
      st.pile.length = 1 * 52 + (if true then 1 * 2 else 0) := by
  obtain ⟨h0, st, hok, _, _, hlen, _⟩ := construction_spec 1 2 true (by decide) (by decide)
  exact ⟨h0, st, hok, hlen⟩

/-- Successful construction characterized: the argument check and the
resulting record. -/
theorem pokerInit_ok_iff {d p : Nat} {j : Bool} {st : poker} :
    pokerInit d p j = Except.ok st ↔
      p ≠ 0 ∧ st = { players := p, pile := (List.range d).flatMap (fun _ => deckBlock j),
                     player_card := List.replicate p [] } := by
  unfold pokerInit
  split
  · simp_all
  · simp_all [eq_comm]

/-- Every Joker in a per-deck block carries suit DIAMOND. -/
theorem deckBlock_joker_suit (j : Bool) :
    ∀ c ∈ deckBlock j, c.number = 14 → c.suit = DIAMOND := by
  cases j <;> decide

/-- The accumulator form of `suit_subdeck`'s fold. -/
theorem suit_subdeck_foldl (s : Int) :
    ∀ (l : List card) (acc : List card),
      l.foldl (fun acc c => if (c.suit : Int) = s then acc ++ [c] else acc) acc
        = acc ++ l.filter (fun c => (c.suit : Int) == s) := by
  intro l
  induction l with
  | nil => simp
  | cons a t ih =>
    intro acc
    by_cases h : (a.suit : Int) = s
    · simp [List.filter_cons, h, ih]
    · simp [List.filter_cons, h, ih]

/-- `suit_subdeck` is exactly `filter` on the suit field. -/
theorem suit_subdeck_eq_filter (l : List card) (s : Int) :
    suit_subdeck l s = l.filter (fun c => (c.suit : Int) == s) := by
  unfold suit_subdeck
  rw [suit_subdeck_foldl]
  simp

/-- C9: `suit_subdeck` returns, in original relative order (it is a
sublist), exactly the cards whose suit field equals the argument; and
since constructed Jokers are stored with suit DIAMOND, the DIAMOND
subdeck of a constructed pile contains every Joker in it.  The model
is a pure function, matching the `const` receiver of the C++ method. -/
theorem suit_subdeck_spec (l : List card) (s : Int) :
    suit_subdeck l s = l.filter (fun c => (c.suit : Int) == s) ∧
    (suit_subdeck l s).Sublist l ∧
    (∀ c : card, c ∈ suit_subdeck l s ↔ c ∈ l ∧ (c.suit : Int) = s) ∧
    (∀ (d p : Nat) (st : poker), pokerInit d p true = Except.ok st →
      ∀ c ∈ st.pile, c.number = 14 → c ∈ suit_subdeck st.pile (Int.ofNat DIAMOND)) := by
  refine ⟨suit_subdeck_eq_filter l s, ?_, ?_, ?_⟩
  · rw [suit_subdeck_eq_filter]
    exact List.filter_sublist l
  · intro c
    rw [suit_subdeck_eq_filter, List.mem_filter]
    simp
  · intro d p st hok c hc h14
    have hsuit : c.suit = DIAMOND := by
      obtain ⟨-, hst⟩ := pokerInit_ok_iff.mp hok
      subst hst
      obtain ⟨a, -, hcb⟩ := List.mem_flatMap.mp hc
      exact deckBlock_joker_suit true c hcb h14
    rw [suit_subdeck_eq_filter, List.mem_filter]
    refine ⟨hc, ?_⟩
    simp [hsuit]

/-- Witness for `suit_subdeck_spec`: a stored Joker (suit DIAMOND) is
found by the DIAMOND subdeck on a concrete two-card deck. -/
theorem suit_subdeck_spec_witness :
    card.make 1 14 ∈ suit_subdeck [card.make 0 5, card.make 1 14] 1 := by
  exact ((suit_subdeck_spec [card.make 0 5, card.make 1 14] 1).2.2.1 (card.make 1 14)).mpr
    ⟨by decide, by decide⟩

/-- Propositional reading of the `rank_first_descending` comparator. -/
theorem rankLt_iff (a b : card) :
    rankLt a b = true ↔
      (a.number ≠ b.number ∧ (a.number = 1 ∨ (b.number ≠ 1 ∧ b.number < a.number))) ∨
      (a.number = b.number ∧ b.suit < a.suit) := by
  unfold rankLt
  by_cases h : a.number = b.number <;> simp [h]

/-- Propositional reading of the `suit_first_descending` comparator. -/
theorem suitLt_iff (a b : card) :
    suitLt a b = true ↔
      (a.suit = b.suit ∧ (a.number = 1 ∨ (b.number ≠ 1 ∧ b.number < a.number))) ∨
      (a.suit ≠ b.suit ∧ b.suit < a.suit) := by
  unfold suitLt
  by_cases h : a.suit = b.suit <;> simp [h]

/-- The non-strict relation induced by a mode's comparator is
transitive. -/
theorem modeLe_trans (mode : sort_mode) :
    ∀ a b c : card, (!(modeLt mode b a)) = true → (!(modeLt mode c b)) = true →
      (!(modeLt mode c a)) = true := by
  intro a b c hab hbc
  rw [Bool.not_eq_true', Bool.eq_false_iff, Ne, ] at hab hbc ⊢
  cases mode with
  | rank_first_descending =>
    simp only [modeLt] at hab hbc ⊢
    rw [rankLt_iff] at hab hbc ⊢
    omega
  | suit_first_descending =>
    simp only [modeLt] at hab hbc ⊢
    rw [suitLt_iff] at hab hbc ⊢
    omega

/-- The non-strict relation induced by the rank-first comparator is
total.  (The suit-first comparator is not: it relates two same-suit
Aces in both strict directions, so its induced non-strict relation
holds in neither.) -/
theorem rankLe_total :
    ∀ a b : card, ((!(rankLt b a)) || (!(rankLt a b))) = true := by
  intro a b
  rw [Bool.or_eq_true, Bool.not_eq_true', Bool.not_eq_true',
    Bool.eq_false_iff, Bool.eq_false_iff, Ne, Ne]
  rw [rankLt_iff, rankLt_iff]
  omega

/-- Equality of cards is equality of the two stored fields. -/
theorem card_eq_iff (a b : card) : a = b ↔ a.suit = b.suit ∧ a.number = b.number := by
  cases a
  cases b
  simp

/-- Both comparators are asymmetric except on identical records: a
strict verdict in both directions forces field equality. -/
theorem modeLt_asymm_or_eq (mode : sort_mode) :
    ∀ a b : card, modeLt mode b a = true → modeLt mode a b = true → a = b := by
  intro a b hba hab
  rw [card_eq_iff]
  cases mode with
  | rank_first_descending =>
    simp only [modeLt] at hba hab
    rw [rankLt_iff] at hba hab
    omega
  | suit_first_descending =>
    simp only [modeLt] at hba hab
    rw [suitLt_iff] at hba hab
    omega

/-- `modeLe2` is transitive. -/
theorem modeLe2_trans (mode : sort_mode) :
    ∀ a b c : card, modeLe2 mode a b = true → modeLe2 mode b c = true →
      modeLe2 mode a c = true := by
  intro a b c hab hbc
  simp only [modeLe2, Bool.or_eq_true, Bool.not_eq_true', Bool.eq_false_iff, Ne,
    beq_iff_eq, card_eq_iff] at hab hbc ⊢
  cases mode with
  | rank_first_descending =>
    simp only [modeLt] at hab hbc ⊢
    rw [rankLt_iff] at hab hbc ⊢
    omega
  | suit_first_descending =>
    simp only [modeLt] at hab hbc ⊢
    rw [suitLt_iff] at hab hbc ⊢
    omega

/-- `modeLe2` is antisymmetric. -/
theorem modeLe2_antisymm (mode : sort_mode) :
    ∀ a b : card, modeLe2 mode a b = true → modeLe2 mode b a = true → a = b := by
  intro a b hab hba
  simp only [modeLe2, Bool.or_eq_true, Bool.not_eq_true', Bool.eq_false_iff, Ne,
    beq_iff_eq, card_eq_iff] at hab hba
  rw [card_eq_iff]
  cases mode with
  | rank_first_descending =>
    simp only [modeLt] at hab hba
    rw [rankLt_iff] at hab hba
    omega
  | suit_first_descending =>
    simp only [modeLt] at hab hba
    rw [suitLt_iff] at hab hba
    omega

/-- A true comparator-induced verdict implies the companion order. -/
theorem modeLe2_pos (mode : sort_mode) :
    ∀ a b : card, (!(modeLt mode b a)) = true → modeLe2 mode a b = true := by
  intro a b h
  simp [modeLe2, h]

/-- A false comparator-induced verdict implies the reverse companion
order. -/
theorem modeLe2_neg (mode : sort_mode) :
    ∀ a b : card, (!(modeLt mode b a)) = false → modeLe2 mode b a = true := by
  intro a b h
  rw [Bool.not_eq_false'] at h
  simp only [modeLe2, Bool.or_eq_true, Bool.not_eq_true', beq_iff_eq]
  by_cases hab : modeLt mode a b = true
  · exact Or.inr (modeLt_asymm_or_eq mode a b h hab).symm
  · exact Or.inl (Bool.eq_false_iff.mpr hab)

/-- Merging two lists that are sorted for `le` with the switch `ls`
yields a list sorted for `le`, provided every `ls` verdict implies the
corresponding `le` verdict.  This generalizes the library's
`sorted_merge` to a switch that need not be total. -/
theorem sorted_merge_two {α : Type} {ls le : α → α → Bool}
    (trans : ∀ a b c : α, le a b = true → le b c = true → le a c = true)
    (hpos : ∀ a b : α, ls a b = true → le a b = true)
    (hneg : ∀ a b : α, ls a b = false → le b a = true) :
    ∀ (l₁ l₂ : List α), l₁.Pairwise (fun a b => le a b = true) →
      l₂.Pairwise (fun a b => le a b = true) →
      (List.merge l₁ l₂ ls).Pairwise (fun a b => le a b = true) := by
  intro l₁
  induction l₁ with
  | nil =>
    intro l₂ _ h₂
    simpa only [List.nil_merge]
  | cons x xs ih₁ =>
    intro l₂
    induction l₂ with
    | nil =>
      intro h₁ _
      simpa only [List.merge_right]
    | cons y ys ih₂ =>
      intro h₁ h₂
      rw [List.cons_merge_cons]
      split
      · rename_i hxy
        apply List.Pairwise.cons
        · intro z hz
          rw [List.mem_merge, List.mem_cons] at hz
          rcases hz with hz | rfl | hz
          · exact List.rel_of_pairwise_cons h₁ hz
          · exact hpos x z hxy
          · exact trans x y z (hpos x y hxy) (List.rel_of_pairwise_cons h₂ hz)
        · exact ih₁ (y :: ys) h₁.tail h₂
      · rename_i hxy
        apply List.Pairwise.cons
        · intro z hz
          rw [List.mem_merge, List.mem_cons] at hz
          have hyx : le y x = true := hneg x y (Bool.eq_false_iff.mpr hxy)
          rcases hz with (rfl | hz) | hz
          · exact hyx
          · exact trans y x z hyx (List.rel_of_pairwise_cons h₁ hz)
          · exact List.rel_of_pairwise_cons h₂ hz
        · exact ih₂ h₁ h₂.tail

/-- The merge-sort output under the switch `ls` is sorted for any
transitive `le` that dominates `ls`'s verdicts. -/
theorem sorted_mergeSort_two {α : Type} {ls le : α → α → Bool}
    (trans : ∀ a b c : α, le a b = true → le b c = true → le a c = true)
    (hpos : ∀ a b : α, ls a b = true → le a b = true)
    (hneg : ∀ a b : α, ls a b = false → le b a = true) :
    ∀ l : List α, (List.mergeSort l ls).Pairwise (fun a b => le a b = true)
  | [] => by simp
  | [a] => by simp
  | a :: b :: xs => by
    have h1 : (List.splitInTwo ⟨a :: b :: xs, rfl⟩).1.1.length < xs.length + 1 + 1 := by
      simp [List.splitInTwo_fst]
      omega
    have h2 : (List.splitInTwo ⟨a :: b :: xs, rfl⟩).2.1.length < xs.length + 1 + 1 := by
      simp [List.splitInTwo_snd]
      omega
    rw [List.mergeSort]
    exact sorted_merge_two trans hpos hneg _ _
      (sorted_mergeSort_two trans hpos hneg _) (sorted_mergeSort_two trans hpos hneg _)
termination_by l => l.length

/-- C8: in each sort mode, `deck::sort` produces a permutation of the
original multiset of cards, and sorting an already-sorted deck again
yields the identical sequence. -/
theorem sort_perm_idem (mode : sort_mode) (l : List card) :
    (deckSort mode l).Perm l ∧
    deckSort mode (deckSort mode l) = deckSort mode l := by
  constructor
  · exact List.mergeSort_perm l _
  · have h1 : (deckSort mode l).Pairwise (fun a b => modeLe2 mode a b = true) :=
      sorted_mergeSort_two (modeLe2_trans mode) (modeLe2_pos mode) (modeLe2_neg mode) l
    have h2 : (deckSort mode (deckSort mode l)).Pairwise
        (fun a b => modeLe2 mode a b = true) :=
      sorted_mergeSort_two (modeLe2_trans mode) (modeLe2_pos mode) (modeLe2_neg mode)
        (deckSort mode l)
    exact List.Perm.eq_of_sorted
      (fun a b _ _ hab hba => modeLe2_antisymm mode a b hab hba)
      h2 h1 (List.mergeSort_perm (deckSort mode l) _)

/-- C7: the rank-first-descending comparator treats rank 1 (Ace) as
greater than every other rank when ranks differ, orders other distinct
ranks descending, breaks rank ties by suit descending
(Spade 3 > Heart 2 > Diamond 1 > Club 0), and consequently every Ace
precedes every King in a rank-first-descending sorted hand. -/
theorem ace_high_rule :
    (∀ a b : card, a.number = 1 → b.number ≠ 1 → rankLt a b = true ∧ rankLt b a = false) ∧
    (∀ a b : card, a.number ≠ 1 → b.number ≠ 1 → a.number ≠ b.number →
      (rankLt a b = true ↔ b.number < a.number)) ∧
    (∀ a b : card, a.number = b.number → (rankLt a b = true ↔ b.suit < a.suit)) ∧
    (∀ (l : List card) (i j : Fin (deckSort sort_mode.rank_first_descending l).length),
      ((deckSort sort_mode.rank_first_descending l).get i).number = 1 →
      ((deckSort sort_mode.rank_first_descending l).get j).number = 13 →
      (i : Nat) < (j : Nat)) := by
  have hace : ∀ a b : card, a.number = 1 → b.number ≠ 1 →
      rankLt a b = true ∧ rankLt b a = false := by
    intro a b ha hb
    constructor
    · rw [rankLt_iff]
      omega
    · rw [Bool.eq_false_iff, Ne, rankLt_iff]
      omega
  refine ⟨hace, ?_, ?_, ?_⟩
  · intro a b ha hb hne
    rw [rankLt_iff]
    omega
  · intro a b h
    rw [rankLt_iff]
    omega
  · intro l i j hi hj
    have hpw : (deckSort sort_mode.rank_first_descending l).Pairwise
        (fun a b => (!(rankLt b a)) = true) := by
      exact List.sorted_mergeSort (modeLe_trans sort_mode.rank_first_descending)
        rankLe_total l
    rcases Nat.lt_trichotomy (i : Nat) (j : Nat) with h | h | h
    · exact h
    · exfalso
      have : (i : Fin _) = j := Fin.ext h
      rw [this, hj] at hi
      omega
    · exfalso
      have hle := (List.pairwise_iff_get.mp hpw) j i (by exact h)
      rw [Bool.not_eq_true', Bool.eq_false_iff] at hle
      exact hle (hace _ _ hi (by rw [hj]; decide)).1

/-- Witness for `ace_high_rule`: the Ace of Clubs beats the King of
Spades under the rank-first-descending comparator. -/
theorem ace_high_rule_witness :
    rankLt (card.make 0 1) (card.make 3 13) = true ∧
    rankLt (card.make 3 13) (card.make 0 1) = false := by
  exact ace_high_rule.1 (card.make 0 1) (card.make 3 13) rfl (by decide)

/-- Writing into position `n` and appending the displaced element is a
permutation of appending the new element. -/
theorem set_append_perm {α : Type} :
    ∀ (l : List α) (n : Nat) (x : α) (h : n < l.length),
      (l.set n x ++ [l[n]]).Perm (l ++ [x])
  | [], n, x, h => absurd h (by simp)
  | a :: t, 0, x, h => by
    simp only [List.set_cons_zero, List.getElem_cons_zero, List.cons_append]
    exact ((List.perm_append_singleton a t).cons x).trans
      ((List.Perm.swap a x t).trans (((List.perm_append_singleton x t).symm).cons a))
  | a :: t, n + 1, x, h => by
    simp only [List.set_cons_succ, List.getElem_cons_succ, List.cons_append]
    exact List.Perm.cons a (set_append_perm t n x (by simpa using h))

/-- One swap of `poker::shuffle` is a permutation of the pile. -/
theorem swapIdx_perm (l : List card) (a b : Nat) : (swapIdx l a b).Perm l := by
  unfold swapIdx
  cases ha : l[a]? with
  | none =>
    cases hb : l[b]? <;> exact List.Perm.refl _
  | some x =>
    cases hb : l[b]? with
    | none => exact List.Perm.refl _
    | some y =>
      obtain ⟨ha', hxa⟩ := List.getElem?_eq_some_iff.mp ha
      obtain ⟨hb', hyb⟩ := List.getElem?_eq_some_iff.mp hb
      have hb2 : b < (l.set a y).length := by simpa using hb'
      have h1 := set_append_perm (l.set a y) b x hb2
      have hy : (l.set a y)[b] = y := by
        by_cases hab : a = b
        · subst hab
          exact List.getElem_set_self hb2
        · rw [List.getElem_set_ne hab]
          exact hyb
      rw [hy] at h1
      have h2 := set_append_perm l a y ha'
      rw [hxa] at h2
      exact (List.perm_append_right_iff [y]).mp (h1.trans h2)

/-- The whole swap sequence of `poker::shuffle` is a permutation. -/
theorem shuffle_pile_perm (ps : List (Nat × Nat)) :
    ∀ pile : List card, (ps.foldl (fun p q => swapIdx p q.1 q.2) pile).Perm pile := by
  induction ps with
  | nil =>
    intro pile
    exact List.Perm.refl pile
  | cons q ps ih =>
    intro pile
    exact (ih (swapIdx pile q.1 q.2)).trans (swapIdx_perm pile q.1 q.2)

/-- C5: for a draw pile of size at least 2 and any number of shuffle
iterations, whatever in-range distinct index pairs the random source
produces, shuffling leaves the multiset of pile cards unchanged (the
result is a permutation of the original pile), and touches neither the
player count nor the hands. -/
theorem shuffle_perm (st : poker) (ps : List (Nat × Nat))
    (hsz : 2 ≤ st.pile.length)
    (hv : ∀ q ∈ ps, q.1 < st.pile.length ∧ q.2 < st.pile.length ∧ q.1 ≠ q.2) :
    (pokerShuffle st ps).pile.Perm st.pile ∧
    (pokerShuffle st ps).players = st.players ∧
    (pokerShuffle st ps).player_card = st.player_card :=
  ⟨shuffle_pile_perm ps st.pile, rfl, rfl⟩

/-- Witness for `shuffle_perm`: one swap on a two-card pile. -/
theorem shuffle_perm_witness :
    (pokerShuffle twoCardTable [(0, 1)]).pile.Perm twoCardTable.pile :=
  (shuffle_perm twoCardTable [(0, 1)] (by decide) (by decide)).1

/-- When every draw is the colliding index 0, the redraw loop never
finds a distinct partner. -/
theorem findDistinct_all_zero :
    ∀ cs : List Nat, (∀ c ∈ cs, c = 0) → findDistinct 0 cs = none := by
  intro cs
  induction cs with
  | nil =>
    intro _
    rfl
  | cons b rest ih =>
    intro h
    have hb := h b (List.mem_cons_self b rest)
    subst hb
    simp only [findDistinct, if_pos rfl]
    exact ih (fun c hc => h c (List.mem_cons_of_mem _ hc))

/-- C6: with pile size at least 2, for any first index there is a draw
sequence of valid indices on which the distinct-pair redraw terminates;
with pile size below 2 every draw the distribution can produce is 0
(`floor` of a uniform value in the degenerate range `[0, n)`), so the
redraw loop finds no distinct partner however long it runs — size at
least 2 is a precondition of the algorithm. -/
theorem shuffle_distinct_draw (n : Nat) :
    (2 ≤ n → ∀ a, a < n →
      ∃ cs : List Nat, (∀ c ∈ cs, c < n) ∧ (findDistinct a cs).isSome = true) ∧
    (n < 2 → ∀ cs : List Nat, (∀ c ∈ cs, c < max n 1) → ∀ a, a < max n 1 →
      findDistinct a cs = none) := by
  constructor
  · intro h2 a ha
    by_cases h0 : a = 0
    · subst h0
      refine ⟨[1], ?_, ?_⟩
      · intro c hc
        rw [List.mem_singleton] at hc
        omega
      · simp [findDistinct]
    · refine ⟨[0], ?_, ?_⟩
      · intro c hc
        rw [List.mem_singleton] at hc
        omega
      · simp only [findDistinct]
        rw [if_neg (fun h => h0 h.symm)]
        rfl
  · intro hn cs hcs a ha
    have hm : max n 1 = 1 := by omega
    rw [hm] at hcs ha
    have ha0 : a = 0 := by omega
    subst ha0
    exact findDistinct_all_zero cs (fun c hc => by have := hcs c hc; omega)

/-- Witness for `shuffle_distinct_draw`: termination is possible at
size 2, and with a single card every all-zero draw stream stalls. -/
theorem shuffle_distinct_draw_witness :
    (∃ cs : List Nat, (∀ c ∈ cs, c < 2) ∧ (findDistinct 0 cs).isSome = true) ∧
    findDistinct 0 [0, 0, 0] = none := by
  constructor
  · exact (shuffle_distinct_draw 2).1 (by decide) 0 (by decide)
  · exact (shuffle_distinct_draw 1).2 (by decide) [0, 0, 0] (by decide) 0 (by decide)

/-- Peeling one round-robin step off the front. -/
theorem rrCount_succ (p n pno i : Nat) (hp : pno < p) :
    rrCount p (n + 1) pno i =
      (if pno = i then 1 else 0) + rrCount p n (if p ≤ pno + 1 then 0 else pno + 1) i := by
  have hnext : (if p ≤ pno + 1 then 0 else pno + 1) = (pno + 1) % p := by
    by_cases h : p ≤ pno + 1
    · have hpe : p = pno + 1 := by omega
      simp [h, hpe, Nat.mod_self]
    · have hlt : pno + 1 < p := by omega
      simp [h, Nat.mod_eq_of_lt hlt]
  unfold rrCount
  rw [hnext, List.range_succ_eq_map, List.filter_cons, List.filter_map]
  have hcond : ∀ j ∈ List.range n,
      ((fun j => (pno + j) % p == i) ∘ Nat.succ) j = (((pno + 1) % p + j) % p == i) := by
    intro j _
    simp only [Function.comp]
    congr 1
    rw [Nat.mod_add_mod]
    congr 1
    omega
  rw [List.filter_congr hcond]
  have hhead : ((pno + 0) % p == i) = (pno == i) := by
    rw [Nat.add_zero, Nat.mod_eq_of_lt hp]
  rw [hhead]
  by_cases hi : pno = i
  · simp [hi]
    omega
  · simp [hi]

/-- `List.range p` holds exactly one copy of each `i < p`. -/
theorem range_filter_eq_one :
    ∀ p i : Nat, i < p → ((List.range p).filter (fun j => j == i)).length = 1 := by
  intro p
  induction p with
  | zero =>
    intro i hi
    omega
  | succ m ih =>
    intro i hi
    rw [List.range_succ, List.filter_append, List.length_append]
    by_cases him : i = m
    · subst him
      have h0 : ((List.range i).filter (fun j => j == i)).length = 0 := by
        rw [← List.countP_eq_length_filter, List.countP_eq_zero]
        intro a ha
        have := List.mem_range.mp ha
        simp only [beq_iff_eq]
        omega
      simp [h0]
    · have hi' : i < m := by omega
      have hm : ((m : Nat) == i) = false := by
        simp only [beq_eq_false_iff_ne, Ne]
        omega
      rw [ih i hi']
      simp [List.filter_cons, hm]

/-- A whole number of rounds starting at player 0 gives every player
the same share. -/
theorem rrCount_full (p : Nat) (hp : 1 ≤ p) :
    ∀ k i, i < p → rrCount p (k * p) 0 i = k := by
  intro k
  induction k with
  | zero =>
    intro i hi
    simp [rrCount]
  | succ m ih =>
    intro i hi
    have hsplit : (m + 1) * p = m * p + p := by ring
    rw [hsplit]
    unfold rrCount
    rw [List.range_add, List.filter_append, List.length_append, List.filter_map,
      List.length_map]
    have ihv := ih i hi
    unfold rrCount at ihv
    rw [ihv]
    have hcond : ∀ j ∈ List.range p,
        ((fun j => (0 + j) % p == i) ∘ (fun x => m * p + x)) j = (j == i) := by
      intro j hj
      have hjp : j < p := List.mem_range.mp hj
      simp only [Function.comp, Nat.zero_add]
      congr 1
      rw [Nat.add_comm, Nat.add_mul_mod_self_right]
      exact Nat.mod_eq_of_lt hjp
    rw [List.filter_congr hcond, range_filter_eq_one p i hi]

/-- The deal loop: with enough cards and a current player in range, it
succeeds, takes its cards from the pile's end, and credits each player
according to the round-robin count. -/
theorem dealLoop_spec (p : Nat) :
    ∀ (n pno : Nat) (pile : List card) (hands : List (List card)),
      hands.length = p → pno < p → n ≤ pile.length →
      ∃ pile' hands', dealLoop p n pno pile hands = Except.ok (pile', hands') ∧
        pile' = pile.take (pile.length - n) ∧
        hands'.length = p ∧
        ∀ i, i < p →
          (hands'.getD i []).length = (hands.getD i []).length + rrCount p n pno i := by
  intro n
  induction n with
  | zero =>
    intro pno pile hands hh _ _
    exact ⟨pile, hands, rfl, by simp, hh, fun i _ => by simp [rrCount]⟩
  | succ m ih =>
    intro pno pile hands hh hpno hn
    have hne : pile ≠ [] := by
      intro h
      rw [h] at hn
      simp at hn
    obtain ⟨c, hc⟩ : ∃ c, pile.getLast? = some c :=
      ⟨pile.getLast hne, List.getLast?_eq_getLast pile hne⟩
    have hh1 : (hands.set pno (hands.getD pno [] ++ [c])).length = p := by
      simp [hh]
    have hpno' : (if p ≤ pno + 1 then 0 else pno + 1) < p := by
      split <;> omega
    have hlen1 : m ≤ pile.dropLast.length := by
      rw [List.length_dropLast]
      omega
    obtain ⟨pile', hands', heq, hpile, hhl, hgain⟩ :=
      ih (if p ≤ pno + 1 then 0 else pno + 1) pile.dropLast
        (hands.set pno (hands.getD pno [] ++ [c])) hh1 hpno' hlen1
    refine ⟨pile', hands', ?_, ?_, hhl, ?_⟩
    · simp only [dealLoop, hc]
      exact heq
    · rw [hpile, List.length_dropLast, List.dropLast_eq_take, List.take_take]
      congr 1
      omega
    · intro i hi
      rw [hgain i hi]
      have hstep : ((hands.set pno (hands.getD pno [] ++ [c])).getD i []).length
          = (hands.getD i []).length + (if pno = i then 1 else 0) := by
        by_cases hip : pno = i
        · subst hip
          have hplen : pno < hands.length := by omega
          rw [List.getD_eq_getElem?_getD, List.getElem?_set_self hplen,
            List.getD_eq_getElem?_getD, List.getElem?_eq_getElem hplen]
          simp [List.getD]
        · rw [List.getD_eq_getElem?_getD, List.getElem?_set_ne hip,
            List.getD_eq_getElem?_getD]
          simp [hip]
      rw [hstep, rrCount_succ p m pno i hpno, Nat.add_assoc]

/-- C3 (amended): dealing `k` cards per player on a table whose hands
match its player count (as construction guarantees) and whose pile
holds at least `k * players` cards succeeds, removes exactly
`k * players` cards from the end of the pile (the remaining pile is
the prefix), and gives every player exactly `k` more cards — provided
the product `k * players` stays below `2^32`, since `deal` computes it
in `unsigned int` and deals only the wrapped total. -/
theorem deal_spec (st : poker) (k : Nat)
    (hlen : st.player_card.length = st.players)
    (hp : 1 ≤ st.players)
    (hwrap : k * st.players < 4294967296)
    (hsz : k * st.players ≤ st.pile.length) :
    ∃ st', pokerDeal st k = Except.ok st' ∧
      st'.players = st.players ∧
      st'.pile = st.pile.take (st.pile.length - k * st.players) ∧
      st'.pile.length + k * st.players = st.pile.length ∧
      st'.player_card.length = st.player_card.length ∧
      ∀ i, i < st.players →
        (st'.player_card.getD i []).length = (st.player_card.getD i []).length + k := by
  obtain ⟨pile', hands', heq, hpile, hhl, hgain⟩ :=
    dealLoop_spec st.players (k * st.players) 0 st.pile st.player_card hlen (by omega) hsz
  refine ⟨{ st with pile := pile', player_card := hands' }, ?_, rfl, hpile, ?_, ?_, ?_⟩
  · unfold pokerDeal
    rw [Nat.mod_eq_of_lt hwrap, heq]
  · rw [hpile]
    simp only [List.length_take]
    omega
  · rw [hhl, hlen]
  · intro i hi
    rw [hgain i hi, rrCount_full st.players hp k i hi]

/-- Witness for `deal_spec`: dealing one card each on a two-player,
four-card table leaves two pile cards. -/
theorem deal_spec_witness :
    ∃ st', pokerDeal fourCardTable 1 = Except.ok st' ∧
      st'.pile.length + 1 * fourCardTable.players = fourCardTable.pile.length := by
  obtain ⟨st', heq, -, -, hlen, -, -⟩ :=
    deal_spec fourCardTable 1 (by decide) (by decide) (by decide) (by decide)
  exact ⟨st', heq, hlen⟩

/-- C3, counterexample to the claim as stated: `deal` multiplies
`card_per_person * players` in `unsigned int` (`poker.h` line 469).
On the table `poker(82595525, 65536, false)`, whose pile holds
`82595525 * 52 = 4294967300 ≥ 65536 * 65536` cards, `deal(65536)`
wraps the product `65536 * 65536 = 2^32` to 0 and deals nothing: the
table comes back unchanged and hand 0 gains 0 cards instead of the
promised 65536. -/
theorem deal_wrap_counterexample :
    pokerInit 82595525 65536 false = Except.ok wrapDealTable ∧
    65536 * wrapDealTable.players ≤ wrapDealTable.pile.length ∧
    pokerDeal wrapDealTable 65536 = Except.ok wrapDealTable ∧
    (wrapDealTable.player_card.getD 0 []).length = 0 := by
  refine ⟨?_, ?_, ?_, ?_⟩
  · rw [pokerInit_ok_iff]
    exact ⟨by decide, rfl⟩
  · have hb : (deckBlock false).length = 52 := by decide
    simp only [wrapDealTable]
    rw [flatMap_const_length, hb]
    norm_num
  · simp only [pokerDeal, wrapDealTable]
    norm_num
    simp only [dealLoop]
  · simp only [wrapDealTable]
    rw [List.getD_eq_getElem?_getD, List.getElem?_replicate]
    norm_num

/-- `deck::remove` fails exactly on the missing-card check. -/
theorem deckRemove_eq_none (l : List card) (c : card)
    (h : l.any (fun x => card.eqCard x c) = false) : deckRemove l c = none := by
  unfold deckRemove
  rw [h]
  simp

/-- `deck::remove` on a present card erases the first match. -/
theorem deckRemove_eq_some (l : List card) (c : card)
    (h : l.any (fun x => card.eqCard x c) = true) :
    deckRemove l c = some (l.eraseP (fun x => card.eqCard x c)) := by
  unfold deckRemove
  rw [h]
  simp

/-- C4 (amended): `play` on an out-of-range player fails with
OutOfRange; on a valid player it fails with NotFound and changes
nothing when the hand holds no card equal (by suit and rank) to `c`;
when the hand holds such a card it removes the first matching
occurrence, so the hand shrinks by exactly one card and the number of
cards equal to `c` drops by exactly one (if the hand held a single
match, none remains, but duplicate matches from multiple source decks
survive); other hands and the pile are untouched. -/
theorem play_spec (st : poker) (pno : Nat) (c : card) :
    (st.players ≤ pno → pokerPlay st pno c = Except.error pkError.outOfRange) ∧
    (pno < st.players →
      ((st.player_card.getD pno []).any (fun x => card.eqCard x c) = false →
        pokerPlay st pno c = Except.error pkError.notFound) ∧
      ((st.player_card.getD pno []).any (fun x => card.eqCard x c) = true →
        ∃ st', pokerPlay st pno c = Except.ok st' ∧
          st'.players = st.players ∧
          st'.pile = st.pile ∧
          (st'.player_card.getD pno []).length + 1 = (st.player_card.getD pno []).length ∧
          (st'.player_card.getD pno []).countP (fun x => card.eqCard x c) + 1
            = (st.player_card.getD pno []).countP (fun x => card.eqCard x c) ∧
          ∀ i, i ≠ pno → st'.player_card.getD i [] = st.player_card.getD i [])) := by
  constructor
  · intro h
    unfold pokerPlay
    rw [if_pos h]
  · intro hlt
    have hnot : ¬ st.players ≤ pno := by omega
    constructor
    · intro hno
      unfold pokerPlay
      rw [if_neg hnot, deckRemove_eq_none _ _ hno]
    · intro hyes
      have hbound : pno < st.player_card.length := by
        by_contra hge
        rw [List.getD_eq_getElem?_getD, List.getElem?_eq_none (by omega)] at hyes
        simp at hyes
      obtain ⟨x, hxmem, hxp⟩ := List.any_eq_true.mp hyes
      obtain ⟨a, l₁, l₂, hl₁, hpa, hdecomp, herase⟩ :=
        @List.exists_of_eraseP card (fun y => card.eqCard y c) _ _ hxmem hxp
      refine ⟨{ st with
          player_card := st.player_card.set pno
            ((st.player_card.getD pno []).eraseP (fun x => card.eqCard x c)) },
        ?_, rfl, rfl, ?_, ?_, ?_⟩
      · unfold pokerPlay
        rw [if_neg hnot, deckRemove_eq_some _ _ hyes]
      · have hgetset : (st.player_card.set pno
            ((st.player_card.getD pno []).eraseP (fun x => card.eqCard x c))).getD pno []
            = (st.player_card.getD pno []).eraseP (fun x => card.eqCard x c) := by
          rw [List.getD_eq_getElem?_getD, List.getElem?_set_self hbound]
          simp
        rw [hgetset, herase, hdecomp]
        simp
        omega
      · have hgetset : (st.player_card.set pno
            ((st.player_card.getD pno []).eraseP (fun x => card.eqCard x c))).getD pno []
            = (st.player_card.getD pno []).eraseP (fun x => card.eqCard x c) := by
          rw [List.getD_eq_getElem?_getD, List.getElem?_set_self hbound]
          simp
        rw [hgetset, herase, hdecomp]
        rw [List.countP_append, List.countP_append, List.countP_cons]
        simp [hpa]
        omega
      · intro i hi
        rw [List.getD_eq_getElem?_getD, List.getElem?_set_ne (fun h => hi h.symm),
          ← List.getD_eq_getElem?_getD]

/-- Witness for `play_spec`: the three outcomes on concrete tables. -/
theorem play_spec_witness :
    pokerPlay twoCardTable 5 (card.make 0 1) = Except.error pkError.outOfRange ∧
    pokerPlay twoCardTable 0 (card.make 3 3) = Except.error pkError.notFound ∧
    ∃ st', pokerPlay oneHandTable 0 (card.make 0 7) = Except.ok st' := by
  refine ⟨?_, ?_, ?_⟩
  · exact (play_spec twoCardTable 5 (card.make 0 1)).1 (by decide)
  · exact ((play_spec twoCardTable 0 (card.make 3 3)).2 (by decide)).1 (by decide)
  · obtain ⟨st', hok, -⟩ :=
      ((play_spec oneHandTable 0 (card.make 0 7)).2 (by decide)).2 (by decide)
    exact ⟨st', hok⟩

/-- C4, counterexample to the claim as stated: on a two-deck table,
dealing the last 53 cards to the single player puts two Spade Kings in
the hand; playing a Spade King succeeds, yet a card equal to it is
still found in the hand afterwards. -/
theorem play_duplicate_counterexample :
    ((pokerInit 2 1 false >>= fun st => pokerDeal st 53).map
      (fun st => (st.player_card.getD 0 []).any (fun x => card.eqCard x (card.make 3 13))))
      = Except.ok true ∧
    ((pokerInit 2 1 false >>= fun st => pokerDeal st 53 >>= fun st =>
        pokerPlay st 0 (card.make 3 13)).map
      (fun st => (st.player_card.getD 0 []).any (fun x => card.eqCard x (card.make 3 13))))
      = Except.ok true := by
  constructor
  · rfl
  · rfl

/-- C1: the played card is discarded, not returned to the draw pile,
so the conservation invariant breaks on the first Play.  On a fresh
one-deck two-player table the total is 52, still 52 after dealing one
card to each player, and 51 after player 0 plays the Spade King —
contradicting both the invariant and `play`'s own documentation, which
says the card goes back to the card pile. -/
theorem play_breaks_conservation :
    ((pokerInit 1 2 false).map totalCards = Except.ok 52) ∧
    ((pokerInit 1 2 false >>= fun st => pokerDeal st 1).map totalCards = Except.ok 52) ∧
    ((pokerInit 1 2 false >>= fun st => pokerDeal st 1 >>= fun st =>
        pokerPlay st 0 (card.make 3 13)).map totalCards = Except.ok 51) := by
  refine ⟨rfl, rfl, rfl⟩

end PK
